import Mathlib

/-!
Verification development for the Ketryx project data extractor
(ketryx_data_extractor.py). The Python source is shallowly embedded:
each Python helper becomes a Lean function of the same name, JSON-ish
values become the inductive type Value, dictionaries that preserve
insertion order become association lists, and the float fill rate is
modelled as an exact rational.
-/

namespace Ketryx

/-- A JSON-ish Python value as it appears in a record field.
vNull models Python None and also a missing key (record.get default). -/
inductive Value where
  | vStr (s : String)
  | vNum (n : Int)
  | vBool (b : Bool)
  | vNull
deriving DecidableEq

/-- Python str() applied to a Value (ASCII scope). -/
def pyStr : Value → String
  | .vStr s => s
  | .vNum n => toString n
  | .vBool b => if b then "True" else "False"
  | .vNull => "None"

/-- Python truthiness of a Value. -/
def truthy : Value → Bool
  | .vStr s => !(s = "")
  | .vNum n => !(n = 0)
  | .vBool b => b
  | .vNull => false

/-- The check used by the field analysis pass, line 377 and line 391 of
the source: value is not None and value != "". A number or a boolean is
never equal to the empty string in Python, so only None and "" fail. -/
def present : Value → Bool
  | .vStr s => !(s = "")
  | .vNum _ => true
  | .vBool _ => true
  | .vNull => false

/-- Truncation of a string to its first n characters, Python s[:n]. -/
def string_take (s : String) (n : Nat) : String := ⟨s.data.take n⟩

/-- Python lower() on the ASCII labels this program sees. -/
def py_lower (s : String) : String := ⟨s.data.map Char.toLower⟩

/-- Python replace("_", " ") for a one character pattern. -/
def restore_spaces (s : String) : String :=
  ⟨s.data.map (fun c => if c = '_' then ' ' else c)⟩

/-- Whether pat is a starting segment of s, helper for substring search. -/
def starts_with_chars : List Char → List Char → Bool
  | [], _ => true
  | _ :: _, [] => false
  | a :: as, b :: bs => a = b && starts_with_chars as bs

/-- Python substring containment pat in s, on char lists. -/
def contains_chars (pat : List Char) : List Char → Bool
  | [] => starts_with_chars pat []
  | c :: rest => starts_with_chars pat (c :: rest) || contains_chars pat rest

/-- Python pat in s on strings. -/
def containsSubstr (pat s : String) : Bool := contains_chars pat.data s.data

/-- Source line 454: normalize field name, spaces to underscores
(Python replace with a one character pattern, modelled per character). -/
def normalize_field_name (name : String) : String :=
  ⟨name.data.map (fun c => if c = ' ' then '_' else c)⟩

/-- Source lines 41 to 45: the RICH_TEXT_FIELD_PATTERNS set. -/
def RICH_TEXT_FIELD_PATTERNS : List String :=
  ["description", "rationale", "notes", "content", "details", "summary",
   "comment", "justification", "analysis", "resolution", "root_cause",
   "impact", "mitigation", "verification", "acceptance_criteria"]

/-- Source line 466: the html_indicators list. -/
def html_indicators : List String :=
  ["<p>", "<ul>", "<ol>", "<li>", "<strong>", "<em>", "<br", "<div>", "<span>"]

/-- Source lines 458 to 474: _is_rich_text_field. -/
def is_rich_text_field (field_name : String) (values : List Value) : Bool :=
  let lower_name := restore_spaces (py_lower field_name)
  RICH_TEXT_FIELD_PATTERNS.any (fun p => containsSubstr p lower_name) ||
  (values.take 10).any (fun v =>
    match v with
    | .vStr s => html_indicators.any (fun tag => containsSubstr tag s) ||
        decide (500 < s.length)
    | _ => false)

/-- One entry of the fields array of a record. The type hint is optional,
field_obj.get with default string is applied at use sites. A missing
value key, Python get with default, is modelled by vStr "" or vNull
exactly as the source reads it. -/
structure FieldEntry where
  label : String
  value : Value
  type : Option String := none
deriving DecidableEq

/-- One relation entry of a record. -/
structure RelationEntry where
  type : Option String := none
  toItem : Option String := none
deriving DecidableEq

/-- A record as returned by the source collaborator. Standard attributes
are Values, with vNull for an absent key. -/
structure Record where
  title : Value := Value.vNull
  revision : Value := Value.vNull
  isControlled : Value := Value.vNull
  createdAt : Value := Value.vNull
  fields : List FieldEntry := []
  relations : List RelationEntry := []
deriving DecidableEq

/-- Source line 368: the standard_fields list. -/
def standard_fields : List String := ["title", "revision", "isControlled", "createdAt"]

/-- Python record.get(name) for the standard attributes. -/
def record_get (r : Record) (name : String) : Value :=
  if name = "title" then r.title
  else if name = "revision" then r.revision
  else if name = "isControlled" then r.isControlled
  else if name = "createdAt" then r.createdAt
  else Value.vNull

/-- The per field accumulator of _analyze_all_fields, source line 365:
values list, set of declared type hints, custom flag, last seen label. -/
structure FieldAcc where
  values : List Value
  types : List String
  isCustom : Bool
  label : String
deriving DecidableEq

/-- The defaultdict default of source line 365. -/
def emptyFieldAcc : FieldAcc := ⟨[], [], true, ""⟩

/-- Lookup in an insertion ordered association list, Python dict access. -/
def lookupA {α : Type} (k : String) : List (String × α) → Option α
  | [] => none
  | (k0, a) :: rest => if k0 = k then some a else lookupA k rest

/-- Update of an insertion ordered association list at key k, creating
the entry from the default d on first access, Python defaultdict. -/
def updateAssoc {α : Type} (k : String) (f : α → α) (d : α) :
    List (String × α) → List (String × α)
  | [] => [(k, f d)]
  | (k0, a) :: rest =>
    if k0 = k then (k0, f a) :: rest else (k0, a) :: updateAssoc k f d rest

/-- Python set add, modelled on a list queried only for membership. -/
def insert_absent (h : String) (l : List String) : List String :=
  if h ∈ l then l else l ++ [h]

/-- Accumulation of one standard field observation, source lines 377 to 380. -/
def push_standard (name : String) (v : Value) (acc : FieldAcc) : FieldAcc :=
  ⟨acc.values ++ [v], acc.types, false, name⟩

/-- Accumulation of one custom field observation, source lines 391 to 396. -/
def push_custom (label : String) (hint : String) (v : Value) (acc : FieldAcc) : FieldAcc :=
  ⟨acc.values ++ [v], insert_absent hint acc.types, true, label⟩

/-- The standard fields loop of source lines 375 to 380 for one record. -/
def apply_standard (r : Record) (st : List (String × FieldAcc)) :
    List (String × FieldAcc) :=
  standard_fields.foldl
    (fun s name =>
      if present (record_get r name) = true then
        updateAssoc name (push_standard name (record_get r name)) emptyFieldAcc s
      else s)
    st

/-- The custom fields loop body of source lines 383 to 396 for one entry. -/
def step_entry (st : List (String × FieldAcc)) (e : FieldEntry) :
    List (String × FieldAcc) :=
  if e.label ≠ "" ∧ present e.value = true then
    updateAssoc (normalize_field_name e.label)
      (push_custom e.label (e.type.getD "string") e.value) emptyFieldAcc st
  else st

/-- Processing of one record, source lines 370 to 396. -/
def step_record (st : List (String × FieldAcc)) (r : Record) :
    List (String × FieldAcc) :=
  r.fields.foldl step_entry (apply_standard r st)

/-- The whole accumulation pass over the records of one type. -/
def collect_fields (recs : List Record) : List (String × FieldAcc) :=
  recs.foldl step_record []

/-- The data type cascade of source lines 407 to 418. -/
def resolve_data_type (field_key : String) (values : List Value)
    (types : List String) : String :=
  if is_rich_text_field field_key values = true then "richText"
  else if "number" ∈ types then "number"
  else if "date" ∈ types ∨ "datetime" ∈ types then "datetime"
  else if "boolean" ∈ types then "boolean"
  else "string"

/-- The access object of a field: plain path, optional rich path. -/
structure Access where
  plain : String
  rich : Option String := none
deriving DecidableEq

/-- Source lines 476 to 499: _compute_access_paths. -/
def compute_access_paths (field_name : String) (is_custom : Bool)
    (data_type : String) : Access :=
  let normalized := normalize_field_name field_name
  if is_custom then
    if data_type = "richText" then
      ⟨"fieldValue." ++ normalized, some ("~~fieldContent." ++ normalized)⟩
    else ⟨"fieldValue." ++ normalized, none⟩
  else
    if data_type = "richText" then ⟨field_name, some ("~~" ++ field_name)⟩
    else ⟨field_name, none⟩

def MAX_SAMPLE_VALUES : Nat := 5
def MAX_UNIQUE_VALUES : Nat := 25
def MAX_SAMPLE_RECORDS : Nat := 3
def MAX_STRING_LENGTH : Nat := 100

/-- Canonicalization of one observed value inside _compute_value_samples:
a string is truncated to 100 characters, anything else is stringified. -/
def canon_value (v : Value) : String :=
  match v with
  | .vStr s => string_take s MAX_STRING_LENGTH
  | _ => pyStr v

/-- Python dict.fromkeys deduplication, keeping first occurrences in order. -/
def dedup_first_seen (l : List String) : List String :=
  l.foldl (fun acc x => if x ∈ acc then acc else acc ++ [x]) []

/-- Executable lexicographic comparison of char lists by code point, the
order Python uses to compare strings. -/
def chars_le : List Char → List Char → Bool
  | [], _ => true
  | _ :: _, [] => false
  | a :: as, b :: bs => if a < b then true else if b < a then false else chars_le as bs

/-- The executable form of the lexicographic string order. -/
def str_le (a b : String) : Prop := chars_le a.data b.data = true

instance : DecidableRel str_le := fun a b => by
  unfold str_le; infer_instance

/-- Python sorted on a list of strings, a stable sort by the lexicographic
code point order; modelled by insertion sort over that order. -/
def sort_strings (l : List String) : List String :=
  List.insertionSort str_le l

/-- Source lines 501 to 521: _compute_value_samples, returning the pair
of uniqueValues and exampleValues. -/
def compute_value_samples (values : List Value) (data_type : String) :
    List String × List String :=
  if values = [] then ([], [])
  else if data_type = "richText" then ([], [])
  else
    let truncated := values.map canon_value
    let unique := dedup_first_seen truncated
    if unique.length ≤ MAX_UNIQUE_VALUES then (sort_strings unique, [])
    else ([], unique.take MAX_SAMPLE_VALUES)

/-- Source lines 71 to 82: the FieldInfo dataclass, fillRate as an exact
rational in place of the Python float. -/
structure FieldInfo where
  name : String
  normalizedName : String
  label : String
  dataType : String
  isCustomField : Bool
  access : Access
  uniqueValues : List String
  exampleValues : List String
  fillRate : ℚ
deriving DecidableEq

/-- Banker style rounding of a rational to an integer, the behaviour of
the Python format .0f on the exactly represented fill rates. -/
def round_half_even (q : ℚ) : ℤ :=
  let f := ⌊q⌋
  if q - f < 1/2 then f
  else if 1/2 < q - f then f + 1
  else if f % 2 = 0 then f else f + 1

/-- The fill rate string of source line 97. -/
def format_percent (q : ℚ) : String := toString (round_half_even q) ++ "%"

/-- The serialized form of a field, source lines 84 to 98. An absent key
is modelled by an empty list or by none. The elif of line 94 shows
exampleValues only when uniqueValues is empty. -/
structure FieldDict where
  label : String
  dataType : String
  access : Access
  isCustomField : Bool
  uniqueValues : List String
  exampleValues : List String
  fillRate : Option String
deriving DecidableEq

/-- Source lines 84 to 98: FieldInfo.to_dict. -/
def field_to_dict (fi : FieldInfo) : FieldDict :=
  { label := fi.label
    dataType := fi.dataType
    access := fi.access
    isCustomField := fi.isCustomField
    uniqueValues := fi.uniqueValues
    exampleValues := if fi.uniqueValues = [] then fi.exampleValues else []
    fillRate := if fi.fillRate < 100 then some (format_percent fi.fillRate) else none }

/-- Construction of one FieldInfo from an accumulator, source lines
399 to 439, with n the number of records of the type. -/
def build_field_info (n : Nat) (field_key : String) (acc : FieldAcc) : FieldInfo :=
  let data_type := resolve_data_type field_key acc.values acc.types
  let samples := compute_value_samples acc.values data_type
  { name := field_key
    normalizedName := normalize_field_name field_key
    label := acc.label
    dataType := data_type
    isCustomField := acc.isCustom
    access := compute_access_paths field_key acc.isCustom data_type
    uniqueValues := samples.1
    exampleValues := samples.2
    fillRate := if n = 0 then 0 else (acc.values.length : ℚ) / (n : ℚ) * 100 }

/-- The FieldInfo building loop of source lines 399 to 439, keeping the
guard of line 404 that skips an accumulator without values. -/
def build_infos (n : Nat) : List (String × FieldAcc) → List (String × FieldInfo)
  | [] => []
  | (k, acc) :: rest =>
    if acc.values = [] then build_infos n rest
    else (k, build_field_info n k acc) :: build_infos n rest

/-- Field analysis for the records of one type, source lines 354 to 439. -/
def analyze_all_fields (recs : List Record) : List (String × FieldInfo) :=
  build_infos recs.length (collect_fields recs)

/-- Order used to model Python sorted on the status values; the statuses
this program collects are strings, compared through their string form. -/
def value_le (v w : Value) : Prop := str_le (pyStr v) (pyStr w)

instance : DecidableRel value_le := fun v w => by
  unfold value_le; infer_instance

/-- Python sorted on status values. -/
def sort_values (l : List Value) : List Value := List.insertionSort value_le l

/-- The status collection step of source lines 442 to 447. -/
def status_step (acc : List Value) (e : FieldEntry) : List Value :=
  if e.label = "Status" ∧ truthy e.value = true ∧ e.value ∉ acc then acc ++ [e.value]
  else acc

/-- Source lines 441 to 449: status extraction, deduplicated in first
seen order and then sorted. -/
def extract_statuses (recs : List Record) : List Value :=
  sort_values (recs.foldl (fun acc r => r.fields.foldl status_step acc) [])

/-- Source lines 561 to 564: _truncate. -/
def truncate (text : String) (max_len : Nat) : String :=
  if text.length ≤ max_len then text else ⟨text.data.take (max_len - 3)⟩ ++ "..."

/-- Python dict assignment sample[k] = v, keeping the position of an
existing key and appending a new key. -/
def dict_insert (k v : String) : List (String × String) → List (String × String)
  | [] => [(k, v)]
  | (k0, v0) :: rest =>
    if k0 = k then (k0, v) :: rest else (k0, v0) :: dict_insert k v rest

/-- The capped custom fields loop of _build_sample_records, source lines
538 to 554, with the running sample dict and the custom field count. -/
def sample_go (flds : List (String × FieldInfo)) :
    List FieldEntry → List (String × String) → Nat → List (String × String)
  | [], s, _ => s
  | e :: rest, s, cnt =>
    if 4 ≤ cnt then s
    else
      let normalized := normalize_field_name e.label
      if (match lookupA normalized flds with
          | some fi => decide (fi.dataType = "richText")
          | none => false) then
        sample_go flds rest s cnt
      else if e.label ≠ "" ∧ truthy e.value = true ∧ e.value ≠ Value.vStr "" then
        sample_go flds rest (dict_insert normalized (truncate (pyStr e.value) 60) s) (cnt + 1)
      else sample_go flds rest s cnt

/-- One projection of _build_sample_records, source lines 527 to 557. -/
def build_sample (flds : List (String × FieldInfo)) (r : Record) :
    List (String × String) :=
  let s0 := if truthy r.title = true then [("title", truncate (pyStr r.title) 80)] else []
  sample_go flds r.fields s0 0

/-- Source lines 523 to 559: _build_sample_records. -/
def build_sample_records (recs : List Record) (flds : List (String × FieldInfo)) :
    List (List (String × String)) :=
  (recs.take MAX_SAMPLE_RECORDS).filterMap (fun r =>
    let s := build_sample flds r
    if s = [] then none else some s)

/-- Python prefix.isalpha(). -/
def py_isalpha (s : String) : Bool := !s.data.isEmpty && s.data.all Char.isAlpha

/-- The acceptance test of source line 340. -/
def accept_short (p : String) : Bool :=
  py_isalpha p && decide (1 ≤ p.length) && decide (p.length ≤ 6)

/-- Python "-" in s. -/
def has_dash (s : String) : Bool := s.data.any (fun c => c = '-')

/-- Python s.split("-")[0], the part before the first dash. -/
def dash_before (s : String) : String := ⟨s.data.takeWhile (fun c => c ≠ '-')⟩

/-- The inner fields scan of source lines 335 to 342, stopping at the
first accepted short name candidate. -/
def scan_fields_short : List FieldEntry → Option String
  | [] => none
  | e :: rest =>
    if e.label = "ID" then
      if truthy e.value && has_dash (pyStr e.value) then
        if accept_short (dash_before (pyStr e.value)) then
          some (dash_before (pyStr e.value))
        else scan_fields_short rest
      else scan_fields_short rest
    else scan_fields_short rest

/-- The outer record scan of source lines 332 to 344. -/
def scan_records_short : List Record → String
  | [] => ""
  | r :: rest =>
    match scan_fields_short r.fields with
    | some p => p
    | none => scan_records_short rest

/-- Short name inference over the first 20 records, source lines 331 to 344. -/
def short_name_of_records (recs : List Record) : String :=
  scan_records_short (recs.take 20)

/-- The shortName presence rule of ItemTypeInfo.to_dict, source lines
138 to 139: the key appears only when the short name is nonempty. -/
def short_name_out (sn : String) : Option String :=
  if sn = "" then none else some sn

/-- The body of a successful query_records call: the records list and the
optional reported total, response.get("total", len(records)). -/
structure FetchResponse where
  records : List Record
  total : Option Nat := none

/-- What _fetch_records_by_type keeps for one surviving type. -/
structure TypeFetchResult where
  records : List Record
  count : Nat
  shortName : String
deriving DecidableEq

/-- Source lines 305 to 352: _fetch_records_by_type over the discovered
type names in order, with fetch the record source; a failed call is none.
A type with a failed call or no records is dropped. -/
def fetch_records_by_type (fetch : String → Option FetchResponse) :
    List String → List (String × TypeFetchResult)
  | [] => []
  | t :: rest =>
    match fetch t with
    | none => fetch_records_by_type fetch rest
    | some resp =>
      if resp.records = [] then fetch_records_by_type fetch rest
      else
        (t, ⟨resp.records, resp.total.getD resp.records.length,
             short_name_of_records resp.records⟩) :: fetch_records_by_type fetch rest

/-- Whether a discovered type survives the full fetch. -/
def keep_type (fetch : String → Option FetchResponse) (t : String) : Bool :=
  match fetch t with
  | none => false
  | some resp => !resp.records.isEmpty

/-- The surviving entry of one type, matching fetch_records_by_type. -/
def type_result (fetch : String → Option FetchResponse) (t : String) : TypeFetchResult :=
  match fetch t with
  | none => ⟨[], 0, ""⟩
  | some resp =>
    ⟨resp.records, resp.total.getD resp.records.length, short_name_of_records resp.records⟩

/-- The totalItems summary of source line 662, restricted to the item
type map produced by the fetch pass. -/
def summary_total_items (res : List (String × TypeFetchResult)) : Nat :=
  (res.map (fun p => p.2.count)).sum

/-- The per relation accumulator of _analyze_relations, source line 568. -/
structure RelAcc where
  fromTypes : List String
  count : Nat
deriving DecidableEq

/-- Source lines 101 to 116 without the unused toTypes content and the
access pattern string: what the relation catalog stores per relation. -/
structure RelationTypeInfo where
  relationType : String
  fromTypes : List String
  toTypes : List String
  count : Nat
deriving DecidableEq

/-- Python relation.get("type", "UNKNOWN"). -/
def rel_entry_name (rel : RelationEntry) : String := rel.type.getD "UNKNOWN"

/-- One relation entry tally, source lines 579 to 583. -/
def rel_step (tn : String) (st : List (String × RelAcc)) (rel : RelationEntry) :
    List (String × RelAcc) :=
  updateAssoc (rel_entry_name rel)
    (fun a => ⟨a.fromTypes ++ [tn], a.count + 1⟩) ⟨[], 0⟩ st

/-- All relation entries of one record, source lines 571 to 583. -/
def rel_record_step (tn : String) (st : List (String × RelAcc)) (r : Record) :
    List (String × RelAcc) :=
  r.relations.foldl (rel_step tn) st

/-- The global relation tally over all types, source lines 566 to 583;
byType lists each type with its records in map order. -/
def build_relation_catalog (byType : List (String × List Record)) :
    List (String × RelAcc) :=
  byType.foldl (fun st p => p.2.foldl (rel_record_step p.1) st) []

/-- The relation_types map contents in insertion order, source lines
585 to 594. -/
def relation_types_list (byType : List (String × List Record)) :
    List RelationTypeInfo :=
  (build_relation_catalog byType).map (fun p =>
    ⟨p.1, p.2.fromTypes, [], p.2.count⟩)

/-- The key order of the stable descending sort of source lines 620 to
624: a comes no later than b when the count of b is at most the count
of a. -/
def rel_le (a b : RelationTypeInfo) : Prop := b.count ≤ a.count

instance : DecidableRel rel_le := fun a b => by
  unfold rel_le; infer_instance

instance : IsTotal RelationTypeInfo rel_le :=
  ⟨fun a b => Nat.le_total b.count a.count⟩

instance : IsTrans RelationTypeInfo rel_le :=
  ⟨fun _ _ _ h1 h2 => Nat.le_trans h2 h1⟩

/-- The relationTypes list of the final output, source lines 620 to 624
and 674 to 676: the catalog stably sorted by count descending, capped
at 20 entries. -/
def relations_output (byType : List (String × List Record)) :
    List RelationTypeInfo :=
  (List.insertionSort rel_le (relation_types_list byType)).take 20

/-! Declarative companions used to state the claims: the observation
stream of a field key, the hint stream, the relation name stream in scan
order, and the short name candidate stream. These are the quantities the
specification talks about, to be related to the folds above. -/

/-- Concatenation of the images of a list under a list valued function. -/
def flatAll {α β : Type} (f : α → List β) : List α → List β
  | [] => []
  | x :: xs => f x ++ flatAll f xs

/-- The standard attribute observations a record contributes to key k. -/
def obs_std (k : String) (r : Record) : List Value :=
  standard_fields.filterMap (fun name =>
    if name = k ∧ present (record_get r name) = true then some (record_get r name)
    else none)

/-- The custom field observations a record contributes to key k. -/
def obs_cust (k : String) (r : Record) : List Value :=
  r.fields.filterMap (fun e =>
    if (e.label ≠ "" ∧ present e.value = true) ∧ normalize_field_name e.label = k then
      some e.value
    else none)

/-- Every observation a record contributes to key k, in processing order. -/
def obs_of (k : String) (r : Record) : List Value := obs_std k r ++ obs_cust k r

/-- The declared type hints a record contributes to key k. -/
def hints_of (k : String) (r : Record) : List String :=
  r.fields.filterMap (fun e =>
    if (e.label ≠ "" ∧ present e.value = true) ∧ normalize_field_name e.label = k then
      some (e.type.getD "string")
    else none)

/-- The accumulated values of key k in a field accumulator state. -/
def values_at (k : String) (st : List (String × FieldAcc)) : List Value :=
  ((lookupA k st).getD emptyFieldAcc).values

/-- The accumulated type hints of key k in a field accumulator state. -/
def types_at (k : String) (st : List (String × FieldAcc)) : List String :=
  ((lookupA k st).getD emptyFieldAcc).types

/-- The short name candidate of one field entry: for an entry labeled ID
with a truthy value containing a dash, the part before the first dash. -/
def short_candidate (e : FieldEntry) : Option String :=
  if e.label = "ID" ∧ truthy e.value = true ∧ has_dash (pyStr e.value) = true then
    some (dash_before (pyStr e.value))
  else none

/-- All short name candidates of the first 20 records in scan order. -/
def short_candidates (recs : List Record) : List String :=
  flatAll (fun r => r.fields.filterMap short_candidate) (recs.take 20)

/-- The declarative short name: the first accepted candidate, or empty. -/
def spec_short (recs : List Record) : String :=
  (((short_candidates recs).filter accept_short).head?).getD ""

/-- The relation occurrences in scan order, tagged with the source type. -/
def pair_stream (byType : List (String × List Record)) : List (String × String) :=
  flatAll (fun p =>
    flatAll (fun r => r.relations.map (fun rel => (p.1, rel_entry_name rel))) p.2)
    byType

/-- The relation names in scan order. -/
def rel_stream (byType : List (String × List Record)) : List String :=
  (pair_stream byType).map Prod.snd

/-- A presence test for the claims about fill rates: whether a record
carries at least one present field entry normalizing to key k. -/
def record_has_field (k : String) (r : Record) : Prop :=
  ∃ e ∈ r.fields, normalize_field_name e.label = k ∧ present e.value = true

instance (k : String) (r : Record) : Decidable (record_has_field k r) := by
  unfold record_has_field; infer_instance

/-! Concrete fixtures used by the witnesses and counterexamples. -/

/-- A record carrying the custom field labeled Root Cause. -/
def c1rec : Record :=
  { fields := [⟨"Root Cause", Value.vStr "Power supply failure", some "string"⟩] }

/-- A string of 501 characters, longer than the rich text threshold. -/
def long_text : String := ⟨List.replicate 501 'a'⟩

/-- A record with a single Field A entry holding the given value. -/
def c2rec_of (v : Value) : Record :=
  { fields := [⟨"Field A", v, some "string"⟩] }

/-- Ten records with short Field A values. -/
def c2shorts : List Record :=
  [c2rec_of (Value.vStr "s0"), c2rec_of (Value.vStr "s1"), c2rec_of (Value.vStr "s2"),
   c2rec_of (Value.vStr "s3"), c2rec_of (Value.vStr "s4"), c2rec_of (Value.vStr "s5"),
   c2rec_of (Value.vStr "s6"), c2rec_of (Value.vStr "s7"), c2rec_of (Value.vStr "s8"),
   c2rec_of (Value.vStr "s9")]

/-- Eleven records with the long value first. -/
def c2recsA : List Record := c2rec_of (Value.vStr long_text) :: c2shorts

/-- The same eleven records with the long value last. -/
def c2recsB : List Record := c2shorts ++ [c2rec_of (Value.vStr long_text)]

/-- The three status records of the end to end scenario. -/
def c5recs : List Record :=
  [{ fields := [⟨"Status", Value.vStr "Open", some "string"⟩] },
   { fields := [⟨"Status", Value.vStr "Open", some "string"⟩] },
   { fields := [⟨"Status", Value.vStr "Closed", some "string"⟩] }]

/-- A record carrying the same custom label twice. -/
def c4recA : Record :=
  { fields := [⟨"Tag", Value.vStr "x", some "string"⟩,
               ⟨"Tag", Value.vStr "y", some "string"⟩] }

/-- A record without the Tag field. -/
def c4recB : Record := { fields := [] }

/-- A record with one present field entry, for the fill rate witness. -/
def c4wrec : Record := { fields := [⟨"A", Value.vStr "x", some "string"⟩] }

/-- A throwaway FieldInfo used only as a getD fallback in witnesses. -/
def fieldInfoDefault : FieldInfo :=
  ⟨"", "", "", "", false, ⟨"", none⟩, [], [], 0⟩

/-- A record holding a boolean false, a numeric zero and a string value. -/
def c9rec : Record :=
  { fields := [⟨"Done", Value.vBool false, some "boolean"⟩,
               ⟨"Count", Value.vNum 0, some "number"⟩,
               ⟨"Name", Value.vStr "x", some "string"⟩] }

/-- A record source for the fetch witness: type A has records with a
reported total of 7, type B fetches an empty list, type C fails. -/
def c7fetch : String → Option FetchResponse := fun t =>
  if t = "A" then some ⟨[c4wrec], some 7⟩
  else if t = "B" then some ⟨[], none⟩
  else none

/-- A record with the given relation names. -/
def c6rel_rec (names : List String) : Record :=
  { relations := names.map (fun n => { type := some n }) }

/-- Two types of records giving two relations of equal count and one
smaller relation. -/
def c6byT : List (String × List Record) :=
  [("A", [c6rel_rec ["VERIFIES", "TRACES"], c6rel_rec ["VERIFIES"]]),
   ("B", [c6rel_rec ["MITIGATES", "TRACES"]])]

end Ketryx

namespace Ketryx

/-! Association list lemmas. -/

theorem lookupA_updateAssoc {α : Type} (k k0 : String) (f : α → α) (d : α)
    (st : List (String × α)) :
    lookupA k (updateAssoc k0 f d st) =
      if k0 = k then some (f ((lookupA k st).getD d)) else lookupA k st := by
  induction st with
  | nil => by_cases h : k0 = k <;> simp [updateAssoc, lookupA, h]
  | cons p rest ih =>
    obtain ⟨k1, a⟩ := p
    by_cases h1 : k1 = k0
    · subst h1
      by_cases h2 : k1 = k <;> simp [updateAssoc, lookupA, h2]
    · by_cases h2 : k1 = k
      · subst h2
        have hne : ¬ k0 = k1 := fun h => h1 h.symm
        simp [updateAssoc, lookupA, h1, hne]
      · simp [updateAssoc, lookupA, h1, h2, ih]

theorem mem_updateAssoc {α : Type} {P : α → Prop} {k : String} {f : α → α} {d : α}
    {st : List (String × α)} (hst : ∀ p ∈ st, P p.2) (hf : ∀ a, P (f a)) :
    ∀ p ∈ updateAssoc k f d st, P p.2 := by
  induction st with
  | nil => simp [updateAssoc]; exact hf d
  | cons q rest ih =>
    obtain ⟨k1, a⟩ := q
    by_cases h1 : k1 = k
    · simp only [updateAssoc, if_pos h1]
      intro p hp
      rcases List.mem_cons.mp hp with h | h
      · subst h; exact hf a
      · exact hst p (List.mem_cons_of_mem _ h)
    · simp only [updateAssoc, if_neg h1]
      intro p hp
      rcases List.mem_cons.mp hp with h | h
      · subst h; exact hst (k1, a) (List.mem_cons_self _ _)
      · exact ih (fun q hq => hst q (List.mem_cons_of_mem _ hq)) p h

theorem lookupA_eq_none_iff {α : Type} (k : String) (st : List (String × α)) :
    lookupA k st = none ↔ k ∉ st.map Prod.fst := by
  induction st with
  | nil => simp [lookupA]
  | cons p rest ih =>
    obtain ⟨k1, a⟩ := p
    by_cases h : k1 = k
    · subst h; simp [lookupA]
    · have h2 : ¬ k = k1 := fun hk => h hk.symm
      simp [lookupA, h, h2, ih]

theorem keys_updateAssoc {α : Type} (k : String) (f : α → α) (d : α)
    (st : List (String × α)) :
    (updateAssoc k f d st).map Prod.fst =
      if k ∈ st.map Prod.fst then st.map Prod.fst else st.map Prod.fst ++ [k] := by
  induction st with
  | nil => simp [updateAssoc]
  | cons p rest ih =>
    obtain ⟨k1, a⟩ := p
    by_cases h : k1 = k
    · subst h; simp [updateAssoc]
    · have hne : ¬ k = k1 := fun hk => h hk.symm
      by_cases hm : k ∈ rest.map Prod.fst <;>
        simp [updateAssoc, h, hne, hm, ih]

/-! Characterization of the field accumulation pass: the values stored at
a key are exactly the observation stream of that key, and the hint set
membership matches the hint stream. -/

theorem values_at_updateAssoc_push (k k0 : String) (v : Value)
    (g : FieldAcc → FieldAcc) (st : List (String × FieldAcc))
    (hg : ∀ acc, (g acc).values = acc.values ++ [v]) :
    values_at k (updateAssoc k0 g emptyFieldAcc st) =
      if k0 = k then values_at k st ++ [v] else values_at k st := by
  unfold values_at
  rw [lookupA_updateAssoc]
  by_cases h : k0 = k
  · subst h
    simp only [if_pos rfl, Option.getD_some]
    cases lookupA k0 st <;> simp [hg, emptyFieldAcc]
  · simp [h]

theorem values_at_apply_standard (k : String) (r : Record)
    (st : List (String × FieldAcc)) :
    values_at k (apply_standard r st) = values_at k st ++ obs_std k r := by
  unfold apply_standard obs_std
  generalize standard_fields = names
  induction names generalizing st with
  | nil => simp
  | cons name rest ih =>
    simp only [List.foldl_cons, List.filterMap_cons]
    by_cases hp : present (record_get r name) = true
    · rw [if_pos hp, ih,
        values_at_updateAssoc_push k name (record_get r name) _ _ (fun acc => rfl)]
      by_cases hk : name = k
      · subst hk
        simp [hp, List.append_assoc]
      · simp [hk, hp]
    · rw [if_neg hp, ih]
      have hnk : ¬ (name = k ∧ present (record_get r name) = true) := fun h => hp h.2
      simp [hnk]

theorem values_at_step_entry (k : String) (e : FieldEntry)
    (st : List (String × FieldAcc)) :
    values_at k (step_entry st e) =
      values_at k st ++
        (if (e.label ≠ "" ∧ present e.value = true) ∧ normalize_field_name e.label = k
         then [e.value] else []) := by
  unfold step_entry
  by_cases hc : e.label ≠ "" ∧ present e.value = true
  · rw [if_pos hc, values_at_updateAssoc_push _ _ _ _ _ (fun acc => rfl)]
    by_cases hk : normalize_field_name e.label = k
    · simp [hk, hc]
    · simp [hk, hc]
  · rw [if_neg hc]
    have : ¬ ((e.label ≠ "" ∧ present e.value = true) ∧ normalize_field_name e.label = k) :=
      fun h => hc h.1
    simp [this]

theorem values_at_fields_fold (k : String) (es : List FieldEntry)
    (st : List (String × FieldAcc)) :
    values_at k (es.foldl step_entry st) =
      values_at k st ++
        es.filterMap (fun e =>
          if (e.label ≠ "" ∧ present e.value = true) ∧ normalize_field_name e.label = k
          then some e.value else none) := by
  induction es generalizing st with
  | nil => simp
  | cons e rest ih =>
    simp only [List.foldl_cons, List.filterMap_cons]
    rw [ih, values_at_step_entry]
    by_cases hc : (e.label ≠ "" ∧ present e.value = true) ∧ normalize_field_name e.label = k
    · simp [hc, List.append_assoc]
    · simp [hc]

theorem values_at_step_record (k : String) (r : Record)
    (st : List (String × FieldAcc)) :
    values_at k (step_record st r) = values_at k st ++ obs_of k r := by
  unfold step_record obs_of obs_cust
  rw [values_at_fields_fold, values_at_apply_standard, List.append_assoc]

theorem values_at_records_fold (k : String) (recs : List Record)
    (st : List (String × FieldAcc)) :
    values_at k (recs.foldl step_record st) =
      values_at k st ++ flatAll (obs_of k) recs := by
  induction recs generalizing st with
  | nil => simp [flatAll]
  | cons r rest ih =>
    simp only [List.foldl_cons, flatAll]
    rw [ih, values_at_step_record, List.append_assoc]

theorem values_at_collect (k : String) (recs : List Record) :
    values_at k (collect_fields recs) = flatAll (obs_of k) recs := by
  unfold collect_fields
  rw [values_at_records_fold]
  simp [values_at, lookupA, emptyFieldAcc]

end Ketryx

namespace Ketryx

/-! Hint set membership characterization. -/

theorem mem_insert_absent (t h : String) (l : List String) :
    t ∈ insert_absent h l ↔ t ∈ l ∨ t = h := by
  unfold insert_absent
  by_cases hm : h ∈ l
  · simp only [if_pos hm]
    constructor
    · exact Or.inl
    · rintro (ht | rfl)
      · exact ht
      · exact hm
  · simp [if_neg hm]

theorem types_at_updateAssoc_keep (k k0 : String) (g : FieldAcc → FieldAcc)
    (st : List (String × FieldAcc)) (hg : ∀ acc, (g acc).types = acc.types) :
    types_at k (updateAssoc k0 g emptyFieldAcc st) = types_at k st := by
  unfold types_at
  rw [lookupA_updateAssoc]
  by_cases h : k0 = k
  · subst h
    simp only [if_pos rfl, Option.getD_some]
    cases lookupA k0 st <;> simp [hg, emptyFieldAcc]
  · simp [h]

theorem types_at_apply_standard (k : String) (r : Record)
    (st : List (String × FieldAcc)) :
    types_at k (apply_standard r st) = types_at k st := by
  unfold apply_standard
  generalize standard_fields = names
  induction names generalizing st with
  | nil => simp
  | cons name rest ih =>
    simp only [List.foldl_cons]
    by_cases hp : present (record_get r name) = true
    · rw [if_pos hp, ih,
        types_at_updateAssoc_keep k name (push_standard name (record_get r name)) st
          (fun acc => rfl)]
    · rw [if_neg hp, ih]

theorem mem_types_at_step_entry (t k : String) (e : FieldEntry)
    (st : List (String × FieldAcc)) :
    t ∈ types_at k (step_entry st e) ↔
      t ∈ types_at k st ∨
        ((e.label ≠ "" ∧ present e.value = true) ∧ normalize_field_name e.label = k ∧
          t = e.type.getD "string") := by
  unfold step_entry
  by_cases hc : e.label ≠ "" ∧ present e.value = true
  · rw [if_pos hc]
    by_cases hk : normalize_field_name e.label = k
    · subst hk
      unfold types_at
      rw [lookupA_updateAssoc, if_pos rfl]
      simp only [Option.getD_some]
      cases lookupA (normalize_field_name e.label) st <;>
        simp [push_custom, mem_insert_absent, emptyFieldAcc, hc]
    · unfold types_at
      rw [lookupA_updateAssoc, if_neg hk]
      simp [hk]
  · rw [if_neg hc]
    simp [hc]

theorem mem_types_at_fields_fold (t k : String) (es : List FieldEntry)
    (st : List (String × FieldAcc)) :
    t ∈ types_at k (es.foldl step_entry st) ↔
      t ∈ types_at k st ∨ t ∈ es.filterMap (fun e =>
        if (e.label ≠ "" ∧ present e.value = true) ∧ normalize_field_name e.label = k
        then some (e.type.getD "string") else none) := by
  induction es generalizing st with
  | nil => simp
  | cons e rest ih =>
    simp only [List.foldl_cons, List.filterMap_cons]
    rw [ih, mem_types_at_step_entry]
    by_cases hc : (e.label ≠ "" ∧ present e.value = true) ∧ normalize_field_name e.label = k
    · simp only [if_pos hc, List.mem_cons]
      constructor
      · rintro ((ht | ⟨h1, h2, h3⟩) | ht)
        · exact Or.inl ht
        · exact Or.inr (Or.inl h3)
        · exact Or.inr (Or.inr ht)
      · rintro (ht | (rfl | ht))
        · exact Or.inl (Or.inl ht)
        · exact Or.inl (Or.inr ⟨hc.1, hc.2, rfl⟩)
        · exact Or.inr ht
    · simp only [if_neg hc]
      constructor
      · rintro ((ht | ⟨h1, h2, h3⟩) | ht)
        · exact Or.inl ht
        · exact absurd ⟨h1, h2⟩ hc
        · exact Or.inr ht
      · rintro (ht | ht)
        · exact Or.inl (Or.inl ht)
        · exact Or.inr ht

theorem mem_types_at_records_fold (t k : String) (recs : List Record)
    (st : List (String × FieldAcc)) :
    t ∈ types_at k (recs.foldl step_record st) ↔
      t ∈ types_at k st ∨ t ∈ flatAll (hints_of k) recs := by
  induction recs generalizing st with
  | nil => simp [flatAll]
  | cons r rest ih =>
    simp only [List.foldl_cons, flatAll, List.mem_append]
    rw [ih]
    unfold step_record
    rw [mem_types_at_fields_fold, types_at_apply_standard]
    unfold hints_of
    tauto

theorem mem_types_at_collect (t k : String) (recs : List Record) :
    t ∈ types_at k (collect_fields recs) ↔ t ∈ flatAll (hints_of k) recs := by
  unfold collect_fields
  rw [mem_types_at_records_fold]
  simp [types_at, lookupA, emptyFieldAcc]

/-! The accumulators stored by the pass always hold at least one value,
so the guard of source line 404 never fires. -/

theorem nonempty_apply_standard (r : Record) (st : List (String × FieldAcc))
    (hst : ∀ p ∈ st, p.2.values ≠ []) :
    ∀ p ∈ apply_standard r st, p.2.values ≠ [] := by
  unfold apply_standard
  generalize standard_fields = names
  induction names generalizing st with
  | nil => simpa using hst
  | cons name rest ih =>
    simp only [List.foldl_cons]
    by_cases hp : present (record_get r name) = true
    · rw [if_pos hp]
      refine ih _ (mem_updateAssoc (P := fun x : FieldAcc => x.values ≠ []) hst ?_)
      intro a
      simp [push_standard]
    · rw [if_neg hp]; exact ih _ hst

theorem nonempty_fields_fold (es : List FieldEntry) (st : List (String × FieldAcc))
    (hst : ∀ p ∈ st, p.2.values ≠ []) :
    ∀ p ∈ es.foldl step_entry st, p.2.values ≠ [] := by
  induction es generalizing st with
  | nil => simpa using hst
  | cons e rest ih =>
    simp only [List.foldl_cons]
    refine ih _ ?_
    unfold step_entry
    by_cases hc : e.label ≠ "" ∧ present e.value = true
    · rw [if_pos hc]
      refine mem_updateAssoc (P := fun x : FieldAcc => x.values ≠ []) hst ?_
      intro a
      simp [push_custom]
    · rw [if_neg hc]; exact hst

theorem nonempty_collect (recs : List Record) :
    ∀ p ∈ collect_fields recs, p.2.values ≠ [] := by
  unfold collect_fields
  have main : ∀ (rs : List Record) (st : List (String × FieldAcc)),
      (∀ p ∈ st, p.2.values ≠ []) → ∀ p ∈ rs.foldl step_record st, p.2.values ≠ [] := by
    intro rs
    induction rs with
    | nil => intro st hst; simpa using hst
    | cons r rest ih =>
      intro st hst
      simp only [List.foldl_cons]
      exact ih _ (nonempty_fields_fold _ _ (nonempty_apply_standard _ _ hst))
  exact main recs [] (by simp)

/-! Bridging the FieldInfo building loop with a plain map. -/

theorem build_infos_eq_map (n : Nat) (l : List (String × FieldAcc))
    (hl : ∀ p ∈ l, p.2.values ≠ []) :
    build_infos n l = l.map (fun p => (p.1, build_field_info n p.1 p.2)) := by
  induction l with
  | nil => simp [build_infos]
  | cons p rest ih =>
    obtain ⟨k, acc⟩ := p
    have hne : acc.values ≠ [] := hl (k, acc) (List.mem_cons_self _ _)
    simp only [build_infos, if_neg hne, List.map_cons]
    rw [ih (fun q hq => hl q (List.mem_cons_of_mem _ hq))]

theorem lookupA_map_keyed {α β : Type} (k : String) (g : String → α → β)
    (l : List (String × α)) :
    lookupA k (l.map (fun p => (p.1, g p.1 p.2))) = (lookupA k l).map (g k) := by
  induction l with
  | nil => simp [lookupA]
  | cons p rest ih =>
    obtain ⟨k1, a⟩ := p
    by_cases h : k1 = k
    · subst h; simp [lookupA]
    · simp [lookupA, h, ih]

theorem lookupA_analyze (k : String) (recs : List Record) :
    lookupA k (analyze_all_fields recs) =
      (lookupA k (collect_fields recs)).map (build_field_info recs.length k) := by
  unfold analyze_all_fields
  rw [build_infos_eq_map _ _ (nonempty_collect recs), lookupA_map_keyed]

/-! The stored entry of a key exists exactly when the key has at least
one observation. -/

theorem lookupA_mem {α : Type} (k : String) (a : α) (l : List (String × α))
    (h : lookupA k l = some a) : (k, a) ∈ l := by
  induction l with
  | nil => simp [lookupA] at h
  | cons p rest ih =>
    obtain ⟨k1, b⟩ := p
    by_cases hk : k1 = k
    · subst hk
      rw [lookupA, if_pos rfl] at h
      injection h with h
      subst h
      exact List.mem_cons_self _ _
    · simp only [lookupA, if_neg hk] at h
      exact List.mem_cons_of_mem _ (ih h)

theorem lookupA_collect_eq_none_iff (k : String) (recs : List Record) :
    lookupA k (collect_fields recs) = none ↔ flatAll (obs_of k) recs = [] := by
  constructor
  · intro h
    have hv := values_at_collect k recs
    unfold values_at at hv
    rw [h] at hv
    simpa [emptyFieldAcc] using hv.symm
  · intro h
    cases hl : lookupA k (collect_fields recs) with
    | none => rfl
    | some acc =>
      have hv := values_at_collect k recs
      unfold values_at at hv
      rw [hl, h] at hv
      have hmem : (k, acc) ∈ collect_fields recs := lookupA_mem k acc _ hl
      exact absurd hv (nonempty_collect recs (k, acc) hmem)

end Ketryx

namespace Ketryx

/-! Permutation utilities. -/

theorem any_congr_perm {α : Type} {l1 l2 : List α} (h : l1.Perm l2) (f : α → Bool) :
    l1.any f = l2.any f := by
  cases h1 : l1.any f <;> cases h2 : l2.any f
  · rfl
  · rw [List.any_eq_true] at h2
    obtain ⟨x, hx, hfx⟩ := h2
    have h3 : l1.any f = true := List.any_eq_true.mpr ⟨x, h.mem_iff.mpr hx, hfx⟩
    rw [h1] at h3
    exact h3
  · rw [List.any_eq_true] at h1
    obtain ⟨x, hx, hfx⟩ := h1
    have h3 : l2.any f = true := List.any_eq_true.mpr ⟨x, h.mem_iff.mp hx, hfx⟩
    rw [h2] at h3
    exact h3.symm
  · rfl

theorem perm_flatAll {α β : Type} (f : α → List β) {l1 l2 : List α} (h : l1.Perm l2) :
    (flatAll f l1).Perm (flatAll f l2) := by
  induction h with
  | nil => exact List.Perm.refl _
  | cons x _ ih => exact ih.append_left (f x)
  | swap x y t =>
    show (f y ++ (f x ++ flatAll f t)).Perm (f x ++ (f y ++ flatAll f t))
    rw [← List.append_assoc, ← List.append_assoc]
    exact List.Perm.append_right _ (List.perm_append_comm)
  | trans _ _ ih1 ih2 => exact ih1.trans ih2

/-! Invariance of the data type cascade. -/

theorem is_rich_text_congr (k : String) {v1 v2 : List Value} (hp : v1.Perm v2)
    (hlen : v1.length ≤ 10) : is_rich_text_field k v1 = is_rich_text_field k v2 := by
  unfold is_rich_text_field
  have h1 : v1.take 10 = v1 := List.take_of_length_le hlen
  have h2 : v2.take 10 = v2 := List.take_of_length_le (hp.length_eq ▸ hlen)
  rw [h1, h2]
  simp only []
  congr 1
  exact any_congr_perm hp _

theorem resolve_congr (k : String) {v1 v2 : List Value} {t1 t2 : List String}
    (hp : v1.Perm v2) (hlen : v1.length ≤ 10)
    (ht : ∀ s, s ∈ t1 ↔ s ∈ t2) :
    resolve_data_type k v1 t1 = resolve_data_type k v2 t2 := by
  unfold resolve_data_type
  rw [is_rich_text_congr k hp hlen]
  by_cases h : is_rich_text_field k v2 = true
  · rw [if_pos h, if_pos h]
  · rw [if_neg h, if_neg h]
    exact if_congr (ht "number") rfl
      (if_congr (or_congr (ht "date") (ht "datetime")) rfl
        (if_congr (ht "boolean") rfl rfl))

theorem build_field_info_dataType (n : Nat) (k : String) (acc : FieldAcc) :
    (build_field_info n k acc).dataType = resolve_data_type k acc.values acc.types := rfl

theorem acc_values_of_lookup (k : String) (recs : List Record) (acc : FieldAcc)
    (h : lookupA k (collect_fields recs) = some acc) :
    acc.values = flatAll (obs_of k) recs := by
  have hv := values_at_collect k recs
  unfold values_at at hv
  rw [h] at hv
  exact hv

theorem acc_types_mem_of_lookup (k : String) (recs : List Record) (acc : FieldAcc)
    (h : lookupA k (collect_fields recs) = some acc) (t : String) :
    t ∈ acc.types ↔ t ∈ flatAll (hints_of k) recs := by
  have hv := mem_types_at_collect t k recs
  unfold types_at at hv
  rw [h] at hv
  exact hv

end Ketryx

namespace Ketryx

/-- Claim C2 (amended): the data type cascade depends only on the multiset
of records whenever the field has at most 10 accumulated observations;
the general claim fails because the rich text value check samples only
the first 10 observed values in record order. -/
theorem c2_dataType_perm_invariant (recs1 recs2 : List Record) (k : String)
    (h : recs1.Perm recs2)
    (hlen : (flatAll (obs_of k) recs1).length ≤ 10) :
    (lookupA k (analyze_all_fields recs1)).map FieldInfo.dataType
      = (lookupA k (analyze_all_fields recs2)).map FieldInfo.dataType := by
  rw [lookupA_analyze, lookupA_analyze]
  have hobs : (flatAll (obs_of k) recs1).Perm (flatAll (obs_of k) recs2) :=
    perm_flatAll _ h
  cases h1 : lookupA k (collect_fields recs1) with
  | none =>
    have hf1 := (lookupA_collect_eq_none_iff k recs1).mp h1
    rw [hf1] at hobs
    have hf2 : flatAll (obs_of k) recs2 = [] := hobs.symm.eq_nil
    rw [(lookupA_collect_eq_none_iff k recs2).mpr hf2]
    rfl
  | some acc1 =>
    cases h2 : lookupA k (collect_fields recs2) with
    | none =>
      have hf2 := (lookupA_collect_eq_none_iff k recs2).mp h2
      rw [hf2] at hobs
      have hf1 : flatAll (obs_of k) recs1 = [] := hobs.eq_nil
      have hcontra := (lookupA_collect_eq_none_iff k recs1).mpr hf1
      rw [h1] at hcontra
      cases hcontra
    | some acc2 =>
      simp only [Option.map_some']
      congr 1
      rw [build_field_info_dataType, build_field_info_dataType]
      have hv1 := acc_values_of_lookup k recs1 acc1 h1
      have hv2 := acc_values_of_lookup k recs2 acc2 h2
      refine resolve_congr k ?_ ?_ ?_
      · rw [hv1, hv2]; exact hobs
      · rw [hv1]; exact hlen
      · intro s
        rw [acc_types_mem_of_lookup k recs1 acc1 h1 s,
          acc_types_mem_of_lookup k recs2 acc2 h2 s]
        exact (perm_flatAll (hints_of k) h).mem_iff

/-- Witness for claim C2: two permuted two record lists with at most 10
observations give the same data type. -/
theorem c2_witness :
    ([c2rec_of (Value.vStr "s0"), c2rec_of (Value.vStr "s1")].Perm
      [c2rec_of (Value.vStr "s1"), c2rec_of (Value.vStr "s0")] ∧
     (flatAll (obs_of "Field_A")
        [c2rec_of (Value.vStr "s0"), c2rec_of (Value.vStr "s1")]).length ≤ 10) ∧
    (lookupA "Field_A" (analyze_all_fields
        [c2rec_of (Value.vStr "s0"), c2rec_of (Value.vStr "s1")])).map FieldInfo.dataType
      = (lookupA "Field_A" (analyze_all_fields
        [c2rec_of (Value.vStr "s1"), c2rec_of (Value.vStr "s0")])).map FieldInfo.dataType :=
  ⟨⟨List.Perm.swap _ _ _, by decide⟩,
   c2_dataType_perm_invariant _ _ "Field_A" (List.Perm.swap _ _ _) (by decide)⟩

set_option maxRecDepth 8000

/-- Counterexample for claim C2 as stated: two permutations of the same
eleven records, one with a long value among the first ten observations
and one with it last, give different data types for the same field. -/
theorem c2_counterexample :
    c2recsA.Perm c2recsB ∧
    (lookupA "Field_A" (analyze_all_fields c2recsA)).map FieldInfo.dataType
      = some "richText" ∧
    (lookupA "Field_A" (analyze_all_fields c2recsB)).map FieldInfo.dataType
      = some "string" :=
  ⟨(List.perm_append_singleton _ _).symm, by decide, by decide⟩

/-- Claim C1: the code result on the Root Cause scenario. The pattern
root_cause can never match because the matcher replaces underscores with
spaces before the substring test, so the field is classified string with
only a plain access path and a nonempty enumerated domain, against the
intent visible in the pattern set. -/
theorem c1_root_cause_eval :
    is_rich_text_field "Root_Cause" [Value.vStr "Power supply failure"] = false ∧
    (lookupA "Root_Cause" (analyze_all_fields [c1rec])).map FieldInfo.dataType
      = some "string" ∧
    (lookupA "Root_Cause" (analyze_all_fields [c1rec])).map FieldInfo.access
      = some ⟨"fieldValue.Root_Cause", none⟩ ∧
    (lookupA "Root_Cause" (analyze_all_fields [c1rec])).map FieldInfo.uniqueValues
      = some ["Power supply failure"] :=
  ⟨by decide, by decide, by decide, by decide⟩

theorem build_field_info_fillRate (n : Nat) (k : String) (acc : FieldAcc) :
    (build_field_info n k acc).fillRate =
      if n = 0 then 0 else (acc.values.length : ℚ) / (n : ℚ) * 100 := rfl

/-- Claim C5: three records with Status values Open, Open, Closed yield
statuses Closed, Open; the inferred Status field has enumerated domain
Closed, Open and fill rate 100, so the serialized field omits fillRate. -/
theorem c5_status_scenario :
    extract_statuses c5recs = [Value.vStr "Closed", Value.vStr "Open"] ∧
    (lookupA "Status" (analyze_all_fields c5recs)).map FieldInfo.uniqueValues
      = some ["Closed", "Open"] ∧
    (lookupA "Status" (analyze_all_fields c5recs)).map FieldInfo.fillRate = some 100 ∧
    (lookupA "Status" (analyze_all_fields c5recs)).map
      (fun fi => (field_to_dict fi).fillRate) = some none := by
  have h : lookupA "Status" (analyze_all_fields c5recs)
      = some (build_field_info 3 "Status"
          ⟨[Value.vStr "Open", Value.vStr "Open", Value.vStr "Closed"],
           ["string"], true, "Status"⟩) := rfl
  refine ⟨by decide, by decide, ?_, ?_⟩
  · rw [h]
    simp only [Option.map_some', Option.some.injEq]
    simp [build_field_info]
  · rw [h]
    simp only [Option.map_some', Option.some.injEq]
    simp [field_to_dict, build_field_info]

/-- Claim C10: normalization, spaces to underscores, is idempotent. -/
theorem c10_normalize_idempotent (s : String) :
    normalize_field_name (normalize_field_name s) = normalize_field_name s := by
  show String.mk (List.map _ (List.map _ s.data)) = String.mk (List.map _ s.data)
  rw [List.map_map]
  congr 1
  apply List.map_congr_left
  intro c _
  by_cases h : c = ' '
  · subst h; rfl
  · simp only [Function.comp_apply, if_neg h]

end Ketryx

namespace Ketryx

/-! The executable comparison agrees with the lexicographic string order. -/

theorem chars_le_iff_not_lex (x y : List Char) :
    chars_le x y = true ↔ ¬ List.Lex (· < ·) y x := by
  induction x generalizing y with
  | nil =>
    constructor
    · intro _ h
      exact List.Lex.not_nil_right _ _ h
    · intro _
      rfl
  | cons a as ih =>
    cases y with
    | nil =>
      constructor
      · intro h
        simp [chars_le] at h
      · intro h
        exact absurd List.Lex.nil h
    | cons b bs =>
      by_cases hab : a < b
      · have hlex : ¬ List.Lex (· < ·) (b :: bs) (a :: as) := by
          intro h
          cases h with
          | cons h2 => exact absurd hab (lt_irrefl _)
          | rel h2 => exact absurd hab (asymm h2)
        simp [chars_le, hab, hlex]
      · by_cases hba : b < a
        · have hlex : List.Lex (· < ·) (b :: bs) (a :: as) := List.Lex.rel hba
          constructor
          · intro h
            simp [chars_le, hab, hba] at h
          · intro h
            exact absurd hlex h
        · have heq : a = b := le_antisymm (le_of_not_lt hba) (le_of_not_lt hab)
          subst heq
          have hred : chars_le (a :: as) (a :: bs) = chars_le as bs := by
            simp [chars_le]
          rw [hred, ih bs]
          exact (not_congr List.Lex.cons_iff).symm

theorem str_le_iff (a b : String) : str_le a b ↔ a ≤ b := by
  unfold str_le
  rw [chars_le_iff_not_lex, ← not_lt]
  apply not_congr
  rw [String.lt_iff_toList_lt]
  exact Iff.rfl

/-- Claim C3: for a non rich text field the pair of uniqueValues and
exampleValues is as specified: canonicalize, deduplicate in first seen
order, then either the sorted enumeration of at most 25 members with an
empty example list, or the first 5 members with an empty enumeration;
a rich text field gets two empty lists. -/
theorem c3_value_samples (values : List Value) (dt : String) :
    (dt = "richText" → compute_value_samples values dt = ([], [])) ∧
    (dt ≠ "richText" →
      ((dedup_first_seen (values.map canon_value)).length ≤ 25 →
        (compute_value_samples values dt).1.Perm
            (dedup_first_seen (values.map canon_value)) ∧
        (compute_value_samples values dt).1.Sorted (· ≤ ·) ∧
        (compute_value_samples values dt).2 = []) ∧
      (25 < (dedup_first_seen (values.map canon_value)).length →
        (compute_value_samples values dt).1 = [] ∧
        (compute_value_samples values dt).2 =
          (dedup_first_seen (values.map canon_value)).take 5)) := by
  haveI htot : IsTotal String str_le :=
    ⟨fun a b => by
      rw [str_le_iff, str_le_iff]
      exact le_total a b⟩
  haveI htrans : IsTrans String str_le :=
    ⟨fun a b c h1 h2 =>
      (str_le_iff a c).mpr (le_trans ((str_le_iff a b).mp h1) ((str_le_iff b c).mp h2))⟩
  constructor
  · intro hdt
    unfold compute_value_samples
    by_cases hv : values = [] <;> simp [hv, hdt]
  · intro hdt
    by_cases hv : values = []
    · subst hv
      constructor
      · intro _
        refine ⟨?_, ?_, ?_⟩ <;> simp [compute_value_samples, dedup_first_seen]
      · intro h25
        simp [dedup_first_seen] at h25
    · have hcvs : compute_value_samples values dt =
          (if (dedup_first_seen (values.map canon_value)).length ≤ MAX_UNIQUE_VALUES
           then (sort_strings (dedup_first_seen (values.map canon_value)), [])
           else ([], (dedup_first_seen (values.map canon_value)).take MAX_SAMPLE_VALUES)) := by
        unfold compute_value_samples
        rw [if_neg hv, if_neg hdt]
      constructor
      · intro h25
        have h25m : (dedup_first_seen (values.map canon_value)).length ≤ MAX_UNIQUE_VALUES := h25
        rw [hcvs, if_pos h25m]
        refine ⟨List.perm_insertionSort _ _, ?_, rfl⟩
        have hs : (sort_strings (dedup_first_seen (values.map canon_value))).Sorted str_le :=
          List.sorted_insertionSort str_le _
        exact hs.imp (fun h => (str_le_iff _ _).mp h)
      · intro h25
        have h25n : ¬ (dedup_first_seen (values.map canon_value)).length ≤ MAX_UNIQUE_VALUES :=
          not_le.mpr h25
        rw [hcvs, if_neg h25n]
        exact ⟨rfl, rfl⟩

/-- Witness for claim C3: the three observed values b, a, b give the
sorted deduplicated enumeration and an empty example list. -/
theorem c3_witness :
    ("string" ≠ "richText" ∧
      (dedup_first_seen ([Value.vStr "b", Value.vStr "a", Value.vStr "b"].map
        canon_value)).length ≤ 25) ∧
    (compute_value_samples [Value.vStr "b", Value.vStr "a", Value.vStr "b"] "string").1.Perm
        (dedup_first_seen ([Value.vStr "b", Value.vStr "a", Value.vStr "b"].map canon_value)) ∧
    (compute_value_samples [Value.vStr "b", Value.vStr "a", Value.vStr "b"] "string").1.Sorted
        (· ≤ ·) ∧
    (compute_value_samples [Value.vStr "b", Value.vStr "a", Value.vStr "b"] "string").2 = [] :=
  ⟨⟨by decide, by decide⟩,
   ((c3_value_samples [Value.vStr "b", Value.vStr "a", Value.vStr "b"] "string").2
      (by decide)).1 (by decide)⟩

end Ketryx

namespace Ketryx

/-! Arithmetic helpers for the fill rate. -/

theorem rate_ge_iff (L n : Nat) (hn : 0 < n) :
    (100 : ℚ) ≤ (L : ℚ) / (n : ℚ) * 100 ↔ n ≤ L := by
  have hnq : (0 : ℚ) < (n : ℚ) := by exact_mod_cast hn
  rw [div_mul_eq_mul_div, le_div_iff₀ hnq, mul_comm (L : ℚ) 100]
  constructor
  · intro h
    have h2 : (n : ℚ) ≤ (L : ℚ) :=
      le_of_mul_le_mul_left h (by norm_num)
    exact_mod_cast h2
  · intro h
    have h2 : (n : ℚ) ≤ (L : ℚ) := by exact_mod_cast h
    exact mul_le_mul_of_nonneg_left h2 (by norm_num)

theorem flatAll_length {α β : Type} (f : α → List β) (l : List α) :
    (flatAll f l).length = (l.map (fun x => (f x).length)).sum := by
  induction l with
  | nil => simp [flatAll]
  | cons x xs ih => simp [flatAll, ih]

theorem sum_le_length_of_le_one (l : List Nat) (hb : ∀ x ∈ l, x ≤ 1) :
    l.sum ≤ l.length := by
  induction l with
  | nil => simp
  | cons a t ih =>
    have ha : a ≤ 1 := hb a (List.mem_cons_self _ _)
    have iht := ih (fun x hx => hb x (List.mem_cons_of_mem _ hx))
    simp only [List.sum_cons, List.length_cons]
    omega

theorem length_le_sum_iff (l : List Nat) (hb : ∀ x ∈ l, x ≤ 1) :
    l.length ≤ l.sum ↔ ∀ x ∈ l, x = 1 := by
  induction l with
  | nil => simp
  | cons a t ih =>
    have ha : a ≤ 1 := hb a (List.mem_cons_self _ _)
    have hbt : ∀ x ∈ t, x ≤ 1 := fun x hx => hb x (List.mem_cons_of_mem _ hx)
    have iht := ih hbt
    have hts : t.sum ≤ t.length := sum_le_length_of_le_one t hbt
    simp only [List.sum_cons, List.length_cons]
    constructor
    · intro h
      have h1 : a = 1 := by omega
      have h2 : t.length ≤ t.sum := by omega
      intro x hx
      rcases List.mem_cons.mp hx with rfl | hx2
      · exact h1
      · exact iht.mp h2 x hx2
    · intro h
      have h1 : a = 1 := h a (List.mem_cons_self _ _)
      have h2 : t.length ≤ t.sum := iht.mpr (fun x hx => h x (List.mem_cons_of_mem _ hx))
      omega

/-- Claim C4 (amended): the fill rate is the observation count over the
record count times 100; the serialized field omits the fillRate key
exactly when the rate reaches 100, that is when the observation count is
at least the record count, and otherwise shows the rounded percent; the
omission coincides with presence on every record exactly when no record
contributes more than one observation of the field. -/
theorem c4_fill_rate (recs : List Record) (k : String) (fi : FieldInfo)
    (h : lookupA k (analyze_all_fields recs) = some fi) :
    fi.fillRate = ((flatAll (obs_of k) recs).length : ℚ) / (recs.length : ℚ) * 100 ∧
    ((field_to_dict fi).fillRate = none ↔
      recs.length ≤ (flatAll (obs_of k) recs).length) ∧
    (fi.fillRate < 100 →
      (field_to_dict fi).fillRate = some (format_percent fi.fillRate)) ∧
    ((∀ r ∈ recs, (obs_of k r).length ≤ 1) →
      ((field_to_dict fi).fillRate = none ↔ ∀ r ∈ recs, (obs_of k r).length = 1)) := by
  rw [lookupA_analyze] at h
  cases hc : lookupA k (collect_fields recs) with
  | none =>
    rw [hc] at h
    cases h
  | some acc =>
    rw [hc] at h
    simp only [Option.map_some', Option.some.injEq] at h
    subst h
    have hvals := acc_values_of_lookup k recs acc hc
    have hrecs : recs ≠ [] := by
      intro h0
      subst h0
      simp [collect_fields, lookupA] at hc
    have hn : 0 < recs.length := List.length_pos.mpr hrecs
    have hn0 : recs.length ≠ 0 := Nat.pos_iff_ne_zero.mp hn
    have hfr : (build_field_info recs.length k acc).fillRate =
        ((flatAll (obs_of k) recs).length : ℚ) / (recs.length : ℚ) * 100 := by
      rw [build_field_info_fillRate, if_neg hn0, hvals]
    have homit : (field_to_dict (build_field_info recs.length k acc)).fillRate = none ↔
        recs.length ≤ (flatAll (obs_of k) recs).length := by
      show (if (build_field_info recs.length k acc).fillRate < 100
            then some (format_percent (build_field_info recs.length k acc).fillRate)
            else none) = none ↔ _
      rw [hfr]
      by_cases hlt : ((flatAll (obs_of k) recs).length : ℚ) / (recs.length : ℚ) * 100 < 100
      · rw [if_pos hlt]
        constructor
        · intro hsome
          exact absurd hsome (Option.some_ne_none _)
        · intro hge
          exact absurd ((rate_ge_iff _ _ hn).mpr hge) (not_le.mpr hlt)
      · rw [if_neg hlt]
        constructor
        · intro _
          exact (rate_ge_iff _ _ hn).mp (not_lt.mp hlt)
        · intro _
          rfl
    refine ⟨hfr, homit, ?_, ?_⟩
    · intro hlt
      show (if (build_field_info recs.length k acc).fillRate < 100
            then some (format_percent (build_field_info recs.length k acc).fillRate)
            else none) = _
      rw [if_pos hlt]
    · intro hone
      rw [homit, flatAll_length]
      have hb : ∀ x ∈ recs.map (fun r => (obs_of k r).length), x ≤ 1 := by
        intro x hx
        obtain ⟨r, hr, rfl⟩ := List.mem_map.mp hx
        exact hone r hr
      have hlen : recs.length = (recs.map (fun r => (obs_of k r).length)).length := by
        simp
      rw [hlen, length_le_sum_iff _ hb]
      constructor
      · intro hall r hr
        exact hall _ (List.mem_map.mpr ⟨r, hr, rfl⟩)
      · intro hall x hx
        obtain ⟨r, hr, rfl⟩ := List.mem_map.mp hx
        exact hall r hr

/-- Witness for claim C4: a single record with one observation of the
field A, whose serialized field omits the fillRate key. -/
theorem c4_witness :
    lookupA "A" (analyze_all_fields [c4wrec]) =
      some ((lookupA "A" (analyze_all_fields [c4wrec])).getD fieldInfoDefault) ∧
    ((field_to_dict ((lookupA "A" (analyze_all_fields [c4wrec])).getD fieldInfoDefault)).fillRate
        = none ↔
      [c4wrec].length ≤ (flatAll (obs_of "A") [c4wrec]).length) :=
  ⟨rfl,
   (c4_fill_rate [c4wrec] "A"
      ((lookupA "A" (analyze_all_fields [c4wrec])).getD fieldInfoDefault) rfl).2.1⟩

/-- Counterexample for claim C4 as stated: a record carrying the Tag
field twice next to a record without it gives fill rate 100 and an
omitted fillRate key, while the field is present on only half of the
records. -/
theorem c4_counterexample :
    (lookupA "Tag" (analyze_all_fields [c4recA, c4recB])).map
        (fun fi => (field_to_dict fi).fillRate) = some none ∧
    ¬ (∀ r ∈ [c4recA, c4recB], record_has_field "Tag" r) := by
  constructor
  · have h : lookupA "Tag" (analyze_all_fields [c4recA, c4recB])
        = some (build_field_info 2 "Tag"
            ⟨[Value.vStr "x", Value.vStr "y"], ["string"], true, "Tag"⟩) := rfl
    rw [h]
    simp only [Option.map_some', Option.some.injEq]
    simp [field_to_dict, build_field_info]
  · decide

end Ketryx

namespace Ketryx

/-- Claim C7: the fetch pass keeps exactly the discovered types whose
fetch succeeds with a nonempty record list, in order, each with its
reported count and inferred short name; a dropped type is absent from
the map and from the summary total, which sums over kept types only. -/
theorem c7_dropped_types (types : List String) (fetch : String → Option FetchResponse) :
    fetch_records_by_type fetch types =
      (types.filter (keep_type fetch)).map (fun t => (t, type_result fetch t)) ∧
    summary_total_items (fetch_records_by_type fetch types) =
      ((types.filter (keep_type fetch)).map (fun t => (type_result fetch t).count)).sum ∧
    (∀ t ∈ types, keep_type fetch t = false →
      t ∉ (fetch_records_by_type fetch types).map Prod.fst) := by
  have hmain : fetch_records_by_type fetch types =
      (types.filter (keep_type fetch)).map (fun t => (t, type_result fetch t)) := by
    induction types with
    | nil => rfl
    | cons t rest ih =>
      cases hf : fetch t with
      | none =>
        have hk : keep_type fetch t = false := by simp [keep_type, hf]
        simp only [fetch_records_by_type, hf, List.filter_cons, hk]
        exact ih
      | some resp =>
        by_cases hr : resp.records = []
        · have hk : keep_type fetch t = false := by
            simp [keep_type, hf, hr]
          simp only [fetch_records_by_type, hf, if_pos hr, List.filter_cons, hk]
          exact ih
        · have hk : keep_type fetch t = true := by
            simp [keep_type, hf, hr]
          simp [fetch_records_by_type, hf, hr, List.filter_cons, hk, type_result, ih]
  refine ⟨hmain, ?_, ?_⟩
  · rw [hmain]
    unfold summary_total_items
    rw [List.map_map]
    rfl
  · intro t ht hk
    rw [hmain, List.map_map]
    intro hmem
    have : t ∈ types.filter (keep_type fetch) := by
      simpa using hmem
    have := (List.mem_filter.mp this).2
    rw [hk] at this
    cases this

end Ketryx

namespace Ketryx

/-- Witness for claim C7: with type A fetching one record and total 7,
type B fetching an empty list and type C failing, only A survives. -/
theorem c7_witness :
    ("B" ∈ ["A", "B", "C"] ∧ keep_type c7fetch "B" = false) ∧
    "B" ∉ (fetch_records_by_type c7fetch ["A", "B", "C"]).map Prod.fst :=
  ⟨⟨by decide, by decide⟩,
   (c7_dropped_types ["A", "B", "C"] c7fetch).2.2 "B" (by decide) (by decide)⟩

/-! The short name scan equals its declarative description. -/

theorem scan_fields_short_eq (es : List FieldEntry) :
    scan_fields_short es = ((es.filterMap short_candidate).filter accept_short).head? := by
  induction es with
  | nil => rfl
  | cons e rest ih =>
    simp only [scan_fields_short, List.filterMap_cons]
    by_cases hid : e.label = "ID"
    · rw [if_pos hid]
      by_cases ht : truthy e.value = true
      · by_cases hd : has_dash (pyStr e.value) = true
        · have hcond : (truthy e.value && has_dash (pyStr e.value)) = true := by
            rw [ht, hd]; rfl
          rw [if_pos hcond]
          have hc : short_candidate e = some (dash_before (pyStr e.value)) := by
            unfold short_candidate
            rw [if_pos ⟨hid, ht, hd⟩]
          rw [hc]
          by_cases hacc : accept_short (dash_before (pyStr e.value)) = true
          · rw [if_pos hacc, List.filter_cons, if_pos hacc, List.head?_cons]
          · rw [if_neg hacc, List.filter_cons, if_neg hacc]
            exact ih
        · have hcond : ¬ (truthy e.value && has_dash (pyStr e.value)) = true := by
            intro h
            exact hd ((Bool.and_eq_true _ _).mp h).2
          rw [if_neg hcond]
          have hc : short_candidate e = none := by
            unfold short_candidate
            rw [if_neg]
            rintro ⟨_, _, h3⟩
            exact hd h3
          rw [hc]
          exact ih
      · have hcond : ¬ (truthy e.value && has_dash (pyStr e.value)) = true := by
          intro h
          exact ht ((Bool.and_eq_true _ _).mp h).1
        rw [if_neg hcond]
        have hc : short_candidate e = none := by
          unfold short_candidate
          rw [if_neg]
          rintro ⟨_, h2, _⟩
          exact ht h2
        rw [hc]
        exact ih
    · rw [if_neg hid]
      have hc : short_candidate e = none := by
        unfold short_candidate
        rw [if_neg]
        rintro ⟨h1, _, _⟩
        exact hid h1
      rw [hc]
      exact ih

theorem scan_records_short_eq (rs : List Record) :
    scan_records_short rs =
      ((flatAll (fun r => r.fields.filterMap short_candidate) rs).filter
        accept_short).head?.getD "" := by
  induction rs with
  | nil => rfl
  | cons r rest ih =>
    show (match scan_fields_short r.fields with
          | some p => p
          | none => scan_records_short rest) = _
    rw [scan_fields_short_eq]
    cases hh : ((r.fields.filterMap short_candidate).filter accept_short).head? with
    | some p =>
      simp only [flatAll, List.filter_append, List.head?_append, hh]
      rfl
    | none =>
      have hnil : (r.fields.filterMap short_candidate).filter accept_short = [] :=
        List.head?_eq_none_iff.mp hh
      simp only [flatAll, List.filter_append, hnil, List.nil_append]
      exact ih

/-- Claim C8: short name inference scans the first 20 records for ID
entries, takes the part before the first dash when a dash is present,
accepts it exactly when alphabetic of length 1 to 6, stops at the first
accepted candidate, and an empty short name is omitted from the output. -/
theorem c8_short_name (recs : List Record) :
    short_name_of_records recs = spec_short recs ∧
    short_name_out (short_name_of_records recs) =
      (if spec_short recs = "" then none else some (spec_short recs)) := by
  have h : short_name_of_records recs = spec_short recs := by
    unfold short_name_of_records spec_short short_candidates
    exact scan_records_short_eq (recs.take 20)
  exact ⟨h, by rw [short_name_out, h]⟩

end Ketryx

namespace Ketryx

theorem mem_flatAll {α β : Type} (f : α → List β) {l : List α} {x : α} {b : β}
    (hx : x ∈ l) (hb : b ∈ f x) : b ∈ flatAll f l := by
  induction l with
  | nil => cases hx
  | cons y ys ih =>
    rcases List.mem_cons.mp hx with rfl | hx2
    · exact List.mem_append_left _ hb
    · exact List.mem_append_right _ (ih hx2)

theorem mem_dict_insert {k v : String} {s : List (String × String)}
    {q : String × String} (hq : q ∈ dict_insert k v s) : q ∈ s ∨ q.1 = k := by
  induction s with
  | nil =>
    simp only [dict_insert, List.mem_singleton] at hq
    subst hq
    exact Or.inr rfl
  | cons p rest ih =>
    obtain ⟨k0, v0⟩ := p
    by_cases h : k0 = k
    · rw [dict_insert, if_pos h] at hq
      rcases List.mem_cons.mp hq with rfl | hq2
      · exact Or.inr h
      · exact Or.inl (List.mem_cons_of_mem _ hq2)
    · rw [dict_insert, if_neg h] at hq
      rcases List.mem_cons.mp hq with rfl | hq2
      · exact Or.inl (List.mem_cons_self _ _)
      · rcases ih hq2 with h2 | h2
        · exact Or.inl (List.mem_cons_of_mem _ h2)
        · exact Or.inr h2

theorem sample_go_origin (flds : List (String × FieldInfo)) :
    ∀ (es : List FieldEntry) (s : List (String × String)) (cnt : Nat),
      ∀ q ∈ sample_go flds es s cnt,
        q ∈ s ∨ ∃ e ∈ es, q.1 = normalize_field_name e.label ∧ truthy e.value = true := by
  intro es
  induction es with
  | nil =>
    intro s cnt q hq
    exact Or.inl hq
  | cons e rest ih =>
    intro s cnt q hq
    simp only [sample_go] at hq
    by_cases h4 : 4 ≤ cnt
    · rw [if_pos h4] at hq
      exact Or.inl hq
    · rw [if_neg h4] at hq
      by_cases hrich : (match lookupA (normalize_field_name e.label) flds with
          | some fi => decide (fi.dataType = "richText")
          | none => false) = true
      · rw [if_pos hrich] at hq
        rcases ih s cnt q hq with h | ⟨e2, he2, hh⟩
        · exact Or.inl h
        · exact Or.inr ⟨e2, List.mem_cons_of_mem _ he2, hh⟩
      · rw [if_neg hrich] at hq
        by_cases hadd : e.label ≠ "" ∧ truthy e.value = true ∧ e.value ≠ Value.vStr ""
        · rw [if_pos hadd] at hq
          rcases ih _ _ q hq with h | ⟨e2, he2, hh⟩
          · rcases mem_dict_insert h with h2 | h2
            · exact Or.inl h2
            · exact Or.inr ⟨e, List.mem_cons_self _ _, h2, hadd.2.1⟩
          · exact Or.inr ⟨e2, List.mem_cons_of_mem _ he2, hh⟩
        · rw [if_neg hadd] at hq
          rcases ih s cnt q hq with h | ⟨e2, he2, hh⟩
          · exact Or.inl h
          · exact Or.inr ⟨e2, List.mem_cons_of_mem _ he2, hh⟩

theorem build_sample_origin (flds : List (String × FieldInfo)) (r : Record)
    {q : String × String} (hq : q ∈ build_sample flds r) :
    q.1 = "title" ∨ ∃ e ∈ r.fields, q.1 = normalize_field_name e.label ∧
      truthy e.value = true := by
  unfold build_sample at hq
  rcases sample_go_origin flds r.fields _ 0 q hq with h | h
  · by_cases ht : truthy r.title = true
    · rw [if_pos ht] at h
      rcases List.mem_singleton.mp h with rfl
      exact Or.inl rfl
    · rw [if_neg ht] at h
      cases h
  · exact Or.inr h

/-- Claim C9 (amended): in the field observation pass the presence check
is value is not None and value different from the empty string, so a
boolean false or a numeric 0 is observed and participates in the domain
and the fill rate; but the sample record builder tests Python
truthiness, so entries whose values are all falsy for a key never put
that key into a sample projection. -/
theorem c9_falsy_values :
    (∀ v : Value, present v = true ↔ (v ≠ Value.vNull ∧ v ≠ Value.vStr "")) ∧
    (present (Value.vBool false) = true ∧ present (Value.vNum 0) = true) ∧
    (∀ (recs : List Record) (r : Record) (e : FieldEntry), r ∈ recs → e ∈ r.fields →
      e.label ≠ "" → present e.value = true →
      e.value ∈ values_at (normalize_field_name e.label) (collect_fields recs)) ∧
    (∀ (recs : List Record) (flds : List (String × FieldInfo)) (k : String),
      k ≠ "title" →
      (∀ r ∈ recs, ∀ e ∈ r.fields, normalize_field_name e.label = k →
        truthy e.value = false) →
      ∀ s ∈ build_sample_records recs flds, ∀ q ∈ s, q.1 ≠ k) := by
  refine ⟨?_, ⟨rfl, rfl⟩, ?_, ?_⟩
  · intro v
    cases v <;> simp [present]
  · intro recs r e hr he hl hp
    rw [values_at_collect]
    refine mem_flatAll _ hr ?_
    unfold obs_of obs_cust
    refine List.mem_append_right _ (List.mem_filterMap.mpr ⟨e, he, ?_⟩)
    rw [if_pos ⟨⟨hl, hp⟩, rfl⟩]
  · intro recs flds k hkt hfalsy s hs q hq
    unfold build_sample_records at hs
    obtain ⟨r, hr, hif⟩ := List.mem_filterMap.mp hs
    have hsr : s = build_sample flds r := by
      by_cases hb : build_sample flds r = []
      · rw [if_pos hb] at hif
        cases hif
      · rw [if_neg hb] at hif
        exact (Option.some.injEq _ _ ▸ hif).symm
    subst hsr
    have hrr : r ∈ recs := List.take_subset _ _ hr
    rcases build_sample_origin flds r hq with h | ⟨e, he, hqe, htr⟩
    · rw [h]
      exact fun hk => hkt hk.symm
    · intro hk
      rw [hfalsy r hrr e he (by rw [← hqe, hk])] at htr
      cases htr

end Ketryx

namespace Ketryx

/-- Witness for claim C9: the record whose Done entries are all boolean
false never puts the Done key into a sample projection. -/
theorem c9_witness :
    ("Done" ≠ "title" ∧
      (∀ r ∈ [c9rec], ∀ e ∈ r.fields, normalize_field_name e.label = "Done" →
        truthy e.value = false)) ∧
    (∀ s ∈ build_sample_records [c9rec] (analyze_all_fields [c9rec]),
      ∀ q ∈ s, q.1 ≠ "Done") :=
  ⟨⟨by decide, by decide⟩,
   c9_falsy_values.2.2.2 [c9rec] (analyze_all_fields [c9rec]) "Done"
     (by decide) (by decide)⟩

/-- Counterexample for claim C9 as stated: the boolean false and the
numeric 0 are observed, giving enumerated domains, yet both fields are
missing from the sample projection although neither is rich text. -/
theorem c9_counterexample :
    (lookupA "Done" (analyze_all_fields [c9rec])).map FieldInfo.uniqueValues
      = some ["False"] ∧
    (lookupA "Count" (analyze_all_fields [c9rec])).map FieldInfo.uniqueValues
      = some ["0"] ∧
    (lookupA "Done" (analyze_all_fields [c9rec])).map FieldInfo.dataType
      = some "boolean" ∧
    build_sample_records [c9rec] (analyze_all_fields [c9rec]) = [[("Name", "x")]] :=
  ⟨by decide, by decide, by decide, by decide⟩

end Ketryx

namespace Ketryx

/-! The relation catalog keys appear in first discovery order. -/

theorem keys_rel_step (tn : String) (st : List (String × RelAcc)) (rel : RelationEntry) :
    (rel_step tn st rel).map Prod.fst =
      if rel_entry_name rel ∈ st.map Prod.fst then st.map Prod.fst
      else st.map Prod.fst ++ [rel_entry_name rel] := by
  unfold rel_step
  exact keys_updateAssoc _ _ _ _

theorem keys_rel_fold (tn : String) (rels : List RelationEntry) :
    ∀ st : List (String × RelAcc),
      ((rels.foldl (rel_step tn) st).map Prod.fst) =
        (rels.map rel_entry_name).foldl
          (fun acc x => if x ∈ acc then acc else acc ++ [x]) (st.map Prod.fst) := by
  induction rels with
  | nil => intro st; rfl
  | cons rel rest ih =>
    intro st
    simp only [List.foldl_cons, List.map_cons]
    rw [ih, keys_rel_step]

theorem keys_records_fold (tn : String) (recs : List Record) :
    ∀ st : List (String × RelAcc),
      ((recs.foldl (rel_record_step tn) st).map Prod.fst) =
        (flatAll (fun r => r.relations.map rel_entry_name) recs).foldl
          (fun acc x => if x ∈ acc then acc else acc ++ [x]) (st.map Prod.fst) := by
  induction recs with
  | nil => intro st; rfl
  | cons r rest ih =>
    intro st
    simp only [List.foldl_cons, flatAll, List.foldl_append]
    rw [ih]
    unfold rel_record_step
    rw [keys_rel_fold]

theorem keys_catalog_fold (byType : List (String × List Record)) :
    ∀ st : List (String × RelAcc),
      ((byType.foldl (fun st p => p.2.foldl (rel_record_step p.1) st) st).map Prod.fst) =
        (flatAll (fun p => flatAll (fun r => r.relations.map rel_entry_name) p.2)
          byType).foldl
          (fun acc x => if x ∈ acc then acc else acc ++ [x]) (st.map Prod.fst) := by
  induction byType with
  | nil => intro st; rfl
  | cons p rest ih =>
    intro st
    simp only [List.foldl_cons, flatAll, List.foldl_append]
    rw [ih, keys_records_fold]

theorem flatAll_map {α β γ : Type} (g : β → γ) (f : α → List β) (l : List α) :
    (flatAll f l).map g = flatAll (fun x => (f x).map g) l := by
  induction l with
  | nil => rfl
  | cons x xs ih => simp only [flatAll, List.map_append, ih]

theorem rel_stream_eq (byType : List (String × List Record)) :
    rel_stream byType =
      flatAll (fun p => flatAll (fun r => r.relations.map rel_entry_name) p.2) byType := by
  unfold rel_stream pair_stream
  rw [flatAll_map]
  congr 1
  funext p
  rw [flatAll_map]
  congr 1
  funext r
  rw [List.map_map]
  rfl

theorem keys_catalog (byType : List (String × List Record)) :
    (build_relation_catalog byType).map Prod.fst = dedup_first_seen (rel_stream byType) := by
  unfold build_relation_catalog dedup_first_seen
  rw [rel_stream_eq]
  exact keys_catalog_fold byType []

theorem nodup_dedup_fold (l : List String) :
    ∀ acc : List String, acc.Nodup →
      (l.foldl (fun acc x => if x ∈ acc then acc else acc ++ [x]) acc).Nodup := by
  induction l with
  | nil => intro acc h; exact h
  | cons x xs ih =>
    intro acc h
    simp only [List.foldl_cons]
    by_cases hm : x ∈ acc
    · rw [if_pos hm]
      exact ih acc h
    · rw [if_neg hm]
      refine ih _ ?_
      rw [List.nodup_append]
      refine ⟨h, List.nodup_singleton x, ?_⟩
      intro y hy hyx
      rw [List.mem_singleton] at hyx
      subst hyx
      exact hm hy

theorem nodup_dedup_first_seen (l : List String) : (dedup_first_seen l).Nodup :=
  nodup_dedup_fold l [] List.nodup_nil

theorem relation_types_keys (byType : List (String × List Record)) :
    (relation_types_list byType).map RelationTypeInfo.relationType =
      (build_relation_catalog byType).map Prod.fst := by
  unfold relation_types_list
  rw [List.map_map]
  rfl

/-! A pair sublist survives truncation when the larger element is kept. -/

theorem pair_sublist_take {α : Type} {a b : α} :
    ∀ (l : List α) (n : Nat), l.Nodup → List.Sublist [a, b] l → b ∈ l.take n →
      List.Sublist [a, b] (l.take n) := by
  intro l
  induction l with
  | nil =>
    intro n _ h _
    simp at h
  | cons x xs ih =>
    intro n hnd h hb
    cases n with
    | zero => simp at hb
    | succ m =>
      rw [List.take_succ_cons] at hb ⊢
      have hx_not_mem : x ∉ xs := (List.nodup_cons.mp hnd).1
      have hnd2 : xs.Nodup := (List.nodup_cons.mp hnd).2
      cases h with
      | cons _ h2 =>
        rcases List.mem_cons.mp hb with rfl | hb2
        · have hbxs : b ∈ xs := h2.subset (by simp)
          exact absurd hbxs hx_not_mem
        · exact (ih m hnd2 h2 hb2).cons _
      | cons₂ _ h2 =>
        rcases List.mem_cons.mp hb with rfl | hb2
        · have hbxs : b ∈ xs := List.singleton_sublist.mp h2
          exact absurd hbxs hx_not_mem
        · exact (List.singleton_sublist.mpr hb2).cons₂ _

/-- Claim C6: the relationTypes output is the catalog stably sorted by
count descending and truncated to 20 entries; the catalog lists relation
names in first discovery order, and two entries of equal count keep that
order in the output whenever the second one is in the output. -/
theorem c6_relation_order (byType : List (String × List Record)) :
    relations_output byType =
      (List.insertionSort rel_le (relation_types_list byType)).take 20 ∧
    List.Sorted rel_le (List.insertionSort rel_le (relation_types_list byType)) ∧
    (List.insertionSort rel_le (relation_types_list byType)).Perm
      (relation_types_list byType) ∧
    (relation_types_list byType).map RelationTypeInfo.relationType =
      dedup_first_seen (rel_stream byType) ∧
    (∀ a b : RelationTypeInfo, List.Sublist [a, b] (relation_types_list byType) →
      a.count = b.count → b ∈ relations_output byType →
      List.Sublist [a, b] (relations_output byType)) := by
  have hkeys : (relation_types_list byType).map RelationTypeInfo.relationType =
      dedup_first_seen (rel_stream byType) := by
    rw [relation_types_keys, keys_catalog]
  have hnodup : (relation_types_list byType).Nodup := by
    refine List.Nodup.of_map RelationTypeInfo.relationType ?_
    rw [hkeys]
    exact nodup_dedup_first_seen _
  have hsortnodup : (List.insertionSort rel_le (relation_types_list byType)).Nodup :=
    (List.perm_insertionSort rel_le _).nodup_iff.mpr hnodup
  refine ⟨rfl, List.sorted_insertionSort rel_le _, List.perm_insertionSort rel_le _,
    hkeys, ?_⟩
  intro a b hab hcount hb
  have hle : rel_le a b := le_of_eq hcount.symm
  have hsorted : List.Sublist [a, b]
      (List.insertionSort rel_le (relation_types_list byType)) :=
    List.pair_sublist_insertionSort hle hab
  exact pair_sublist_take _ 20 hsortnodup hsorted hb

/-- Witness for claim C6: two relations of count 2 discovered in the
order VERIFIES then TRACES stay in that order in the output. -/
theorem c6_witness :
    (List.Sublist [(⟨"VERIFIES", ["A", "A"], [], 2⟩ : RelationTypeInfo),
      ⟨"TRACES", ["A", "B"], [], 2⟩] (relation_types_list c6byT) ∧
     (⟨"VERIFIES", ["A", "A"], [], 2⟩ : RelationTypeInfo).count =
       (⟨"TRACES", ["A", "B"], [], 2⟩ : RelationTypeInfo).count ∧
     (⟨"TRACES", ["A", "B"], [], 2⟩ : RelationTypeInfo) ∈ relations_output c6byT) ∧
    List.Sublist [(⟨"VERIFIES", ["A", "A"], [], 2⟩ : RelationTypeInfo),
     ⟨"TRACES", ["A", "B"], [], 2⟩] (relations_output c6byT) :=
  ⟨⟨by decide, by decide, by decide⟩,
   (c6_relation_order c6byT).2.2.2.2 _ _ (by decide) (by decide) (by decide)⟩

end Ketryx
